import Mathlib

/-!
Verification of the SeminalInputPass influence-analysis engine
(src/llvm/lib/Transforms/SeminalInputPass/SeminalInputPass.cpp).

The engine detects input-origin values (operands of calls to scanf),
classifies branch and call instructions as key points, computes for every
key point the subset of input values it depends on (a user of the value is
the instruction itself or shares its basic block), and reports the entries
with non-empty influencing sets.

The instruction representation (basic blocks, operands, user lists, debug
locations) is the external collaborator of the spec; it is embedded here as
plain data.  Values and instructions are compared by reference identity in
the source; here every instruction carries a numeric id and identity is
structural equality on the embedded record, while values are bare numeric
handles.
-/

namespace SeminalInput

/-- Shape of an instruction as observed by the pass: a BranchInst, a
CallInst (carrying the name of the statically called routine when
getCalledFunction is non-null), or anything else. -/
inductive InstKind where
  | branch : InstKind
  | call : Option String → InstKind
  | other : InstKind
deriving DecidableEq, Repr

/-- A value handle.  Identity is reference-based in the source; handles are
embedded as naturals compared by equality. -/
abbrev Value := Nat

/-- An instruction of the external instruction representation: its identity,
its parent basic block (getParent, compared by identity), its kind, its
operand list (getOperand 0 .. getNumOperands - 1; for a call, the spec
treats operand index 0 as the routine reference itself), and its optional
debug-location line (getDebugLoc). -/
structure Instruction where
  id : Nat
  parent : Nat
  kind : InstKind
  operands : List Value
  debugLine : Option Nat
deriving DecidableEq, Repr

/-- A basic block: an identity and its ordered instructions. -/
structure BasicBlock where
  id : Nat
  insts : List Instruction
deriving DecidableEq, Repr

/-- A procedure: ordered basic blocks. -/
structure Function where
  name : String
  blocks : List BasicBlock
deriving DecidableEq, Repr

/-- All instructions of a procedure, in block order then intra-block
order - the traversal order of the pass's nested loops. -/
def allInsts (F : Function) : List Instruction :=
  F.blocks.foldr (fun BB acc => BB.insts ++ acc) []

/-- The user-enumeration accessor of the external representation: for each
value, the list of instructions returned by its users() iteration. -/
abbrev UsersEnv := List (Value × List Instruction)

/-- users() of a value under a given environment; a value absent from the
environment has no users. -/
def usersOf (U : UsersEnv) (v : Value) : List Instruction :=
  match U.find? (fun p => p.1 == v) with
  | some p => p.2
  | none => []

/-- Well-formedness of the representation (spec section 7): the user
relationship is symmetric with the operand relationship - an instruction is
a user of a value exactly when it is an instruction of the procedure having
that value among its operands. -/
def UsersWellFormed (F : Function) (U : UsersEnv) : Prop :=
  ∀ (v : Value) (I : Instruction), I ∈ usersOf U v ↔ (I ∈ allInsts F ∧ v ∈ I.operands)

/-- keyPointDependencies: std::map from Instruction to its influencing
set, embedded as an association list with insert-or-assign update. -/
abbrev KeyPointMap := List (Instruction × List Value)

/-- Lookup in the key-point map. -/
def mapLookup : KeyPointMap → Instruction → Option (List Value)
  | [], _ => none
  | p :: rest, k => if p.1 = k then some p.2 else mapLookup rest k

/-- keyPointDependencies[k] = v: assign through operator[], overwriting an
existing binding or appending a fresh one. -/
def mapAssign : KeyPointMap → Instruction → List Value → KeyPointMap
  | [], k, v => [(k, v)]
  | p :: rest, k, v => if p.1 = k then (k, v) :: rest else p :: mapAssign rest k v

/-- The key set of the map. -/
def mapKeys (m : KeyPointMap) : List Instruction := m.map (fun p => p.1)

/-- The per-procedure mutable state of the pass object: the inputVariables
set and the keyPointDependencies map. -/
structure PassState where
  inputVariables : List Value
  keyPointDependencies : KeyPointMap
deriving DecidableEq, Repr

/-- A freshly constructed pass instance: both containers empty. -/
def initState : PassState := { inputVariables := [], keyPointDependencies := [] }

/-- std::set insertion into inputVariables: a duplicate insertion is a
no-op. -/
def insertValue (s : List Value) (v : Value) : List Value :=
  if v ∈ s then s else s ++ [v]

/-- One instruction of detectInputVariables: when the instruction is a call
whose statically called function is named scanf, insert its operands at
indices 1 .. getNumOperands - 1 into the accumulated input set. -/
def detectStep (s : List Value) (Inst : Instruction) : List Value :=
  match Inst.kind with
  | InstKind.call (some callee) =>
      if callee = "scanf" then (Inst.operands.drop 1).foldl insertValue s else s
  | _ => s

/-- detectInputVariables: iterate every instruction of every block,
accumulating into the inputVariables member (s0 is its state at entry). -/
def detectInputVariables (s0 : List Value) (F : Function) : List Value :=
  F.blocks.foldl (fun s BB => BB.insts.foldl detectStep s) s0

/-- isKeyPoint: true exactly for BranchInst and CallInst. -/
def isKeyPoint (Inst : Instruction) : Bool :=
  match Inst.kind with
  | InstKind.branch => true
  | InstKind.call _ => true
  | InstKind.other => false

/-- isDependentOn: scan the users of inputVar; return true on a user that
is the instruction itself, or an instruction user whose parent block is the
instruction's parent block. -/
def isDependentOn (U : UsersEnv) (Inst : Instruction) (inputVar : Value) : Bool :=
  (usersOf U inputVar).any (fun user =>
    decide (user = Inst) || decide (user.parent = Inst.parent))

/-- The influencing set computed for one key point: the input variables it
is dependent on. -/
def influencing (U : UsersEnv) (inputVariables : List Value) (Inst : Instruction) : List Value :=
  inputVariables.filter (fun v => isDependentOn U Inst v)

/-- One instruction of analyzeInputInfluence: a key point is bound in the
map to its influencing set, even when that set is empty; other instructions
leave the map unchanged. -/
def analyzeStep (U : UsersEnv) (inputVariables : List Value)
    (m : KeyPointMap) (Inst : Instruction) : KeyPointMap :=
  if isKeyPoint Inst then mapAssign m Inst (influencing U inputVariables Inst) else m

/-- analyzeInputInfluence: iterate every instruction of every block,
accumulating into the keyPointDependencies member (m0 is its state at
entry). -/
def analyzeInputInfluence (m0 : KeyPointMap) (F : Function) (U : UsersEnv)
    (inputVariables : List Value) : KeyPointMap :=
  F.blocks.foldl (fun m BB => BB.insts.foldl (analyzeStep U inputVariables) m) m0

/-- getLineNumber: the debug-location line when available, 0 otherwise. -/
def getLineNumber (Inst : Instruction) : Nat :=
  match Inst.debugLine with
  | some l => l
  | none => 0

/-- printResults: one report line per map entry with a non-empty
influencing set, carrying the line number of the instruction and the
influencing values; entries with an empty set are skipped. -/
def printResults (m : KeyPointMap) : List (Nat × List Value) :=
  m.foldl (fun out p => if !p.2.isEmpty then out ++ [(getLineNumber p.1, p.2)] else out) []

/-- runOnFunction: clear both members, detect input variables, analyze
influence on key points, print the results.  Returns the pass state after
the run and the emitted report. -/
def runOnFunction (st : PassState) (F : Function) (U : UsersEnv) :
    PassState × List (Nat × List Value) :=
  let cleared : PassState := { st with inputVariables := [], keyPointDependencies := [] }
  let inputs := detectInputVariables cleared.inputVariables F
  let deps := analyzeInputInfluence cleared.keyPointDependencies F U inputs
  ({ inputVariables := inputs, keyPointDependencies := deps }, printResults deps)

/-- A concrete procedure for evaluation: a scanf call storing into value 1
(operand 0, value 9, standing for the routine reference), followed by a
branch on value 1, in one block. -/
def instScanf : Instruction :=
  { id := 0, parent := 0, kind := InstKind.call (some "scanf"),
    operands := [9, 1], debugLine := some 3 }

/-- The branch instruction of the concrete procedure. -/
def instBr : Instruction :=
  { id := 1, parent := 0, kind := InstKind.branch, operands := [1], debugLine := none }

/-- The concrete procedure. -/
def funcMain : Function := { name := "main", blocks := [{ id := 0, insts := [instScanf, instBr] }] }

/-- The user lists of the concrete procedure: the scanf call uses 9 and 1,
the branch uses 1. -/
def usersMain : UsersEnv := [(1, [instScanf, instBr]), (9, [instScanf])]

/-! ### Helper lemmas: traversal order and the detector -/

/-- Membership in the instruction list of a procedure. -/
theorem mem_allInsts (F : Function) (I : Instruction) :
    I ∈ allInsts F ↔ ∃ BB ∈ F.blocks, I ∈ BB.insts := by
  unfold allInsts
  induction F.blocks with
  | nil => simp
  | cons b t ih => simp [ih]

/-- The nested block-then-instruction fold of the detector equals a single
fold over the flattened instruction list. -/
theorem detect_eq_foldl_allInsts (F : Function) (s0 : List Value) :
    detectInputVariables s0 F = (allInsts F).foldl detectStep s0 := by
  unfold detectInputVariables allInsts
  induction F.blocks generalizing s0 with
  | nil => rfl
  | cons b t ih => simp [List.foldl_append, ih]

/-- Membership after set insertion. -/
theorem mem_insertValue (s : List Value) (a v : Value) :
    v ∈ insertValue s a ↔ v ∈ s ∨ v = a := by
  unfold insertValue
  by_cases h : a ∈ s
  · simp only [if_pos h]
    constructor
    · exact fun hv => Or.inl hv
    · rintro (hv | rfl)
      · exact hv
      · exact h
  · simp [if_neg h]

/-- Membership after inserting a whole argument list. -/
theorem mem_foldl_insertValue (args : List Value) (s : List Value) (v : Value) :
    v ∈ args.foldl insertValue s ↔ v ∈ s ∨ v ∈ args := by
  induction args generalizing s with
  | nil => simp
  | cons a t ih => simp [ih, mem_insertValue, or_assoc]

/-- One detector step: a value enters the set exactly when it was already
there or the instruction is a call to scanf having the value among its
operands at index 1 or later. -/
theorem mem_detectStep (s : List Value) (I : Instruction) (v : Value) :
    v ∈ detectStep s I ↔
      v ∈ s ∨ (I.kind = InstKind.call (some "scanf") ∧ v ∈ I.operands.drop 1) := by
  obtain ⟨i, p, k, ops, d⟩ := I
  cases k with
  | branch => simp [detectStep]
  | other => simp [detectStep]
  | call oc =>
    cases oc with
    | none => simp [detectStep]
    | some c =>
      by_cases hc : c = "scanf"
      · subst hc
        simp [detectStep, mem_foldl_insertValue]
      · simp [detectStep, hc]

/-- Detector fold over an instruction list. -/
theorem mem_detect_foldl (l : List Instruction) (s : List Value) (v : Value) :
    v ∈ l.foldl detectStep s ↔
      v ∈ s ∨ ∃ I ∈ l, I.kind = InstKind.call (some "scanf") ∧ v ∈ I.operands.drop 1 := by
  induction l generalizing s with
  | nil => simp
  | cons a t ih =>
    rw [List.foldl_cons, ih, mem_detectStep]
    simp only [List.mem_cons]
    constructor
    · rintro ((hv | hv) | ⟨I, hI, hk⟩)
      · exact Or.inl hv
      · exact Or.inr ⟨a, Or.inl rfl, hv⟩
      · exact Or.inr ⟨I, Or.inr hI, hk⟩
    · rintro (hv | ⟨I, (rfl | hI), hk⟩)
      · exact Or.inl (Or.inl hv)
      · exact Or.inl (Or.inr hk)
      · exact Or.inr ⟨I, hI, hk⟩

/-- Full characterization of the detected input set. -/
theorem mem_detectInputVariables (F : Function) (s0 : List Value) (v : Value) :
    v ∈ detectInputVariables s0 F ↔
      v ∈ s0 ∨ ∃ I ∈ allInsts F, I.kind = InstKind.call (some "scanf") ∧ v ∈ I.operands.drop 1 := by
  rw [detect_eq_foldl_allInsts, mem_detect_foldl]

/-! ### Helper lemmas: the key-point map and the propagator -/

/-- Assigning a key makes it look up to the assigned value. -/
theorem mapLookup_mapAssign_self (m : KeyPointMap) (k : Instruction) (v : List Value) :
    mapLookup (mapAssign m k v) k = some v := by
  induction m with
  | nil => simp [mapAssign, mapLookup]
  | cons p rest ih =>
    by_cases h : p.1 = k
    · simp [mapAssign, mapLookup, h]
    · simp [mapAssign, mapLookup, h, ih]

/-- Assigning a key leaves the binding of every other key unchanged. -/
theorem mapLookup_mapAssign_ne (m : KeyPointMap) (k k' : Instruction) (v : List Value)
    (h : k' ≠ k) : mapLookup (mapAssign m k v) k' = mapLookup m k' := by
  have hnk : ¬ (k = k') := fun hq => h hq.symm
  induction m with
  | nil => simp only [mapAssign, mapLookup, if_neg hnk]
  | cons p rest ih =>
    by_cases hp : p.1 = k
    · subst hp
      simp only [mapAssign, if_pos rfl, mapLookup, if_neg hnk]
    · simp only [mapAssign, if_neg hp, mapLookup]
      by_cases hq : p.1 = k'
      · rw [if_pos hq, if_pos hq]
      · rw [if_neg hq, if_neg hq, ih]

/-- The key set after an assignment. -/
theorem mem_mapKeys_mapAssign (m : KeyPointMap) (k I : Instruction) (v : List Value) :
    I ∈ mapKeys (mapAssign m k v) ↔ I ∈ mapKeys m ∨ I = k := by
  induction m with
  | nil => simp [mapAssign, mapKeys]
  | cons p rest ih =>
    by_cases hp : p.1 = k
    · subst hp
      rw [show mapAssign (p :: rest) p.1 v = (p.1, v) :: rest from by simp [mapAssign]]
      simp only [mapKeys, List.map_cons, List.mem_cons]
      tauto
    · rw [show mapAssign (p :: rest) k v = p :: mapAssign rest k v from by simp [mapAssign, hp]]
      simp only [mapKeys, List.map_cons, List.mem_cons] at ih ⊢
      tauto

/-- A key with a binding is in the key set. -/
theorem mem_mapKeys_of_lookup (m : KeyPointMap) (k : Instruction) (s : List Value)
    (h : mapLookup m k = some s) : k ∈ mapKeys m := by
  induction m with
  | nil => simp [mapLookup] at h
  | cons p rest ih =>
    by_cases hp : p.1 = k
    · show k ∈ p.1 :: mapKeys rest
      exact List.mem_cons.mpr (Or.inl hp.symm)
    · simp only [mapLookup, if_neg hp] at h
      show k ∈ p.1 :: mapKeys rest
      exact List.mem_cons.mpr (Or.inr (ih h))

/-- The key set after the propagation fold: a key was already present or is
a key-point instruction of the traversed list. -/
theorem mem_mapKeys_analyze_foldl (U : UsersEnv) (inputs : List Value)
    (l : List Instruction) (m : KeyPointMap) (I : Instruction) :
    I ∈ mapKeys (l.foldl (analyzeStep U inputs) m) ↔
      I ∈ mapKeys m ∨ (I ∈ l ∧ isKeyPoint I = true) := by
  induction l generalizing m with
  | nil => simp
  | cons a t ih =>
    rw [List.foldl_cons, ih]
    unfold analyzeStep
    by_cases ha : isKeyPoint a = true
    · rw [if_pos ha, mem_mapKeys_mapAssign]
      simp only [List.mem_cons]
      constructor
      · rintro ((h | rfl) | h)
        · exact Or.inl h
        · exact Or.inr ⟨Or.inl rfl, ha⟩
        · exact Or.inr ⟨Or.inr h.1, h.2⟩
      · rintro (h | ⟨(rfl | h), hkp⟩)
        · exact Or.inl (Or.inl h)
        · exact Or.inl (Or.inr rfl)
        · exact Or.inr ⟨h, hkp⟩
    · rw [if_neg ha]
      simp only [List.mem_cons]
      constructor
      · rintro (h | h)
        · exact Or.inl h
        · exact Or.inr ⟨Or.inr h.1, h.2⟩
      · rintro (h | ⟨(rfl | h), hkp⟩)
        · exact Or.inl h
        · exact absurd hkp ha
        · exact Or.inr ⟨h, hkp⟩

/-- A binding of a key point to its influencing set survives the rest of
the propagation fold: any later assignment to the same instruction writes
the same influencing set again. -/
theorem lookup_analyze_preserved (U : UsersEnv) (inputs : List Value)
    (l : List Instruction) (m : KeyPointMap) (I : Instruction)
    (h : mapLookup m I = some (influencing U inputs I)) :
    mapLookup (l.foldl (analyzeStep U inputs) m) I = some (influencing U inputs I) := by
  induction l generalizing m with
  | nil => exact h
  | cons a t ih =>
    rw [List.foldl_cons]
    apply ih
    unfold analyzeStep
    by_cases ha : isKeyPoint a = true
    · rw [if_pos ha]
      by_cases hI : I = a
      · subst hI
        exact mapLookup_mapAssign_self m I (influencing U inputs I)
      · rw [mapLookup_mapAssign_ne m a I _ hI]
        exact h
    · rw [if_neg ha]
      exact h

/-- Every key point of the traversed list ends the propagation fold bound
to its influencing set. -/
theorem lookup_analyze_of_mem (U : UsersEnv) (inputs : List Value)
    (l : List Instruction) (m : KeyPointMap) (I : Instruction)
    (hkp : isKeyPoint I = true) (hI : I ∈ l) :
    mapLookup (l.foldl (analyzeStep U inputs) m) I = some (influencing U inputs I) := by
  induction l generalizing m with
  | nil => simp at hI
  | cons a t ih =>
    rw [List.foldl_cons]
    rcases List.mem_cons.mp hI with rfl | hmem
    · by_cases ht : I ∈ t
      · exact ih _ ht
      · apply lookup_analyze_preserved
        unfold analyzeStep
        rw [if_pos hkp]
        exact mapLookup_mapAssign_self m I (influencing U inputs I)
    · exact ih _ hmem

/-- The nested block-then-instruction fold of the propagator equals a
single fold over the flattened instruction list. -/
theorem analyze_eq_foldl_allInsts (F : Function) (U : UsersEnv) (inputs : List Value)
    (m0 : KeyPointMap) :
    analyzeInputInfluence m0 F U inputs = (allInsts F).foldl (analyzeStep U inputs) m0 := by
  unfold analyzeInputInfluence allInsts
  induction F.blocks generalizing m0 with
  | nil => rfl
  | cons b t ih => simp [List.foldl_append, ih]

/-- The dependency test, unfolded to its existential reading. -/
theorem isDependentOn_iff (U : UsersEnv) (I : Instruction) (v : Value) :
    isDependentOn U I v = true ↔
      ∃ u ∈ usersOf U v, u = I ∨ u.parent = I.parent := by
  unfold isDependentOn
  rw [List.any_eq_true]
  constructor
  · rintro ⟨u, hu, hp⟩
    rcases Bool.or_eq_true_iff.mp hp with hp | hp
    · exact ⟨u, hu, Or.inl (of_decide_eq_true hp)⟩
    · exact ⟨u, hu, Or.inr (of_decide_eq_true hp)⟩
  · rintro ⟨u, hu, hp | hp⟩
    · exact ⟨u, hu, Bool.or_eq_true_iff.mpr (Or.inl (decide_eq_true hp))⟩
    · exact ⟨u, hu, Bool.or_eq_true_iff.mpr (Or.inr (decide_eq_true hp))⟩

/-- Membership in the influencing set of a key point. -/
theorem mem_influencing (U : UsersEnv) (inputs : List Value) (I : Instruction) (v : Value) :
    v ∈ influencing U inputs I ↔ v ∈ inputs ∧ isDependentOn U I v = true := by
  unfold influencing
  exact List.mem_filter

example : detectInputVariables [] funcMain = [1] := by decide
example : isDependentOn usersMain instBr 1 = true := by decide
example : isDependentOn usersMain instBr 9 = true := by decide
example :
    mapLookup (analyzeInputInfluence [] funcMain usersMain [1]) instBr = some [1] := by decide
example :
    (runOnFunction initState funcMain usersMain).2 = [(3, [1]), (0, [1])] := by decide

/-- A call instruction is a key point. -/
theorem isKeyPoint_of_call (I : Instruction) (c : Option String)
    (h : I.kind = InstKind.call c) : isKeyPoint I = true := by
  unfold isKeyPoint
  rw [h]

/-- The user lists of the concrete procedure are symmetric with its operand
lists. -/
theorem usersMain_wf : UsersWellFormed funcMain usersMain := by
  intro v I
  by_cases h1 : v = 1
  · subst h1
    constructor
    · intro h
      have hI : I = instScanf ∨ I = instBr := by
        simpa [usersOf, usersMain] using h
      rcases hI with rfl | rfl
      · exact ⟨by decide, by decide⟩
      · exact ⟨by decide, by decide⟩
    · rintro ⟨hI, hop⟩
      have hI2 : I = instScanf ∨ I = instBr := by
        simpa [allInsts, funcMain] using hI
      rcases hI2 with rfl | rfl <;> simp [usersOf, usersMain]
  · by_cases h9 : v = 9
    · subst h9
      constructor
      · intro h
        have hI : I = instScanf := by
          simpa [usersOf, usersMain] using h
        subst hI
        exact ⟨by decide, by decide⟩
      · rintro ⟨hI, hop⟩
        have hI2 : I = instScanf ∨ I = instBr := by
          simpa [allInsts, funcMain] using hI
        rcases hI2 with rfl | rfl
        · simp [usersOf, usersMain]
        · exact absurd hop (by decide)
    · have e1 : (((1 : Value)) == v) = false :=
        beq_eq_false_iff_ne.mpr (fun h => h1 h.symm)
      have e9 : (((9 : Value)) == v) = false :=
        beq_eq_false_iff_ne.mpr (fun h => h9 h.symm)
      have hu : usersOf usersMain v = [] := by
        simp [usersOf, usersMain, List.find?, e1, e9]
      constructor
      · intro h
        rw [hu] at h
        simp at h
      · rintro ⟨hI, hop⟩
        have hI2 : I = instScanf ∨ I = instBr := by
          simpa [allInsts, funcMain] using hI
        rcases hI2 with rfl | rfl
        · have : v = 9 ∨ v = 1 := by simpa [instScanf] using hop
          rcases this with rfl | rfl
          · exact absurd rfl h9
          · exact absurd rfl h1
        · have : v = 1 := by simpa [instBr] using hop
          exact absurd this h1

/-! ### The claims -/

/-- C1: isDependentOn(instruction, v) returns true iff some user of v is
the instruction itself or some user of v is an instruction in the same
basic block as the instruction; in particular (P3), when the instruction is
a key point of the procedure and v is an input value, any user of v sharing
the instruction's block puts v into the influencing set recorded for it in
the key-point map, even if that user is a different instruction. -/
theorem dependsOn_user_or_same_block (F : Function) (U : UsersEnv) (inputs : List Value)
    (I : Instruction) (v : Value) :
    (isDependentOn U I v = true ↔ ∃ u ∈ usersOf U v, u = I ∨ u.parent = I.parent) ∧
    (I ∈ allInsts F → isKeyPoint I = true → v ∈ inputs →
      (∃ u ∈ usersOf U v, u.parent = I.parent) →
      ∃ s, mapLookup (analyzeInputInfluence [] F U inputs) I = some s ∧ v ∈ s) := by
  constructor
  · exact isDependentOn_iff U I v
  · intro hI hkp hv h
    obtain ⟨u, hu, hp⟩ := h
    rw [analyze_eq_foldl_allInsts]
    refine ⟨influencing U inputs I, lookup_analyze_of_mem U inputs _ _ I hkp hI, ?_⟩
    rw [mem_influencing]
    exact ⟨hv, (isDependentOn_iff U I v).mpr ⟨u, hu, Or.inr hp⟩⟩

/-- C1 witness: value 9 of the concrete procedure is used only by the scanf
call, a different instruction in the branch's block; with input set [9] the
branch's recorded influencing set contains 9. -/
theorem dependsOn_user_or_same_block_witness :
    (isDependentOn usersMain instBr 9 = true ↔
      ∃ u ∈ usersOf usersMain 9, u = instBr ∨ u.parent = instBr.parent) ∧
    (∃ s, mapLookup (analyzeInputInfluence [] funcMain usersMain [9]) instBr = some s ∧ 9 ∈ s) :=
  ⟨(dependsOn_user_or_same_block funcMain usersMain [9] instBr 9).1,
   (dependsOn_user_or_same_block funcMain usersMain [9] instBr 9).2
     (by decide) (by decide) (by decide) ⟨instScanf, by decide, by decide⟩⟩

/-- C2: after a run, the InputSet holds exactly the operands at indices 1
through numOperands - 1 of the calls whose callee is literally named scanf;
the operand at index 0 (per the spec, the routine reference itself) is
excluded by position, and no operand of any other instruction enters. -/
theorem detect_scanf_operands (st : PassState) (F : Function) (U : UsersEnv) (v : Value) :
    v ∈ (runOnFunction st F U).1.inputVariables ↔
      ∃ I ∈ allInsts F, I.kind = InstKind.call (some "scanf") ∧ v ∈ I.operands.drop 1 := by
  show v ∈ detectInputVariables [] F ↔ _
  rw [mem_detectInputVariables]
  simp

/-- C3: after propagation the key set of the key-point map is exactly the
set of instructions of the procedure classified as key points by
isKeyPoint, whether or not their influencing sets are empty. -/
theorem keyPointMap_keys_exact (st : PassState) (F : Function) (U : UsersEnv) (I : Instruction) :
    I ∈ mapKeys (runOnFunction st F U).1.keyPointDependencies ↔
      (I ∈ allInsts F ∧ isKeyPoint I = true) := by
  show I ∈ mapKeys (analyzeInputInfluence [] F U (detectInputVariables [] F)) ↔ _
  rw [analyze_eq_foldl_allInsts, mem_mapKeys_analyze_foldl]
  simp [mapKeys]

/-- C4 (P2): under user/operand symmetry, a key point of the procedure
having an input value directly among its operands records that value in its
influencing set in the key-point map. -/
theorem direct_operand_influences (F : Function) (U : UsersEnv) (inputs : List Value)
    (hWF : UsersWellFormed F U) (I : Instruction) (v : Value)
    (hI : I ∈ allInsts F) (hkp : isKeyPoint I = true) (hv : v ∈ inputs)
    (hop : v ∈ I.operands) :
    ∃ s, mapLookup (analyzeInputInfluence [] F U inputs) I = some s ∧ v ∈ s := by
  rw [analyze_eq_foldl_allInsts]
  refine ⟨influencing U inputs I, lookup_analyze_of_mem U inputs _ _ I hkp hI, ?_⟩
  rw [mem_influencing]
  refine ⟨hv, (isDependentOn_iff U I v).mpr ⟨I, ?_, Or.inl rfl⟩⟩
  exact (hWF v I).mpr ⟨hI, hop⟩

/-- C4 witness: the branch of the concrete procedure uses value 1 directly
and its recorded influencing set contains 1. -/
theorem direct_operand_influences_witness :
    ∃ s, mapLookup (analyzeInputInfluence [] funcMain usersMain [1]) instBr = some s ∧ 1 ∈ s :=
  direct_operand_influences funcMain usersMain [1] usersMain_wf instBr 1
    (by decide) (by decide) (by decide) (by decide)

/-- The reporting fold, with an arbitrary accumulator. -/
theorem printResults_foldl (m : KeyPointMap) (acc : List (Nat × List Value)) :
    m.foldl (fun out p => if !p.2.isEmpty then out ++ [(getLineNumber p.1, p.2)] else out) acc =
      acc ++ (m.filter (fun p => !p.2.isEmpty)).map (fun p => (getLineNumber p.1, p.2)) := by
  induction m generalizing acc with
  | nil => simp
  | cons p rest ih =>
    rw [List.foldl_cons]
    by_cases hp : (!p.2.isEmpty) = true
    · rw [if_pos hp, ih,
        @List.filter_cons_of_pos _ (fun q => !q.2.isEmpty) p rest hp, List.map_cons]
      simp
    · rw [if_neg hp, ih,
        @List.filter_cons_of_neg _ (fun q => !q.2.isEmpty) p rest hp]

/-- C5 (P5): the report holds one line - the instruction's line number with
the influencing values - for exactly the map entries whose influencing set
is non-empty; entries with an empty set stay in the map but never appear. -/
theorem printResults_filter (m : KeyPointMap) :
    printResults m =
      (m.filter (fun p => !p.2.isEmpty)).map (fun p => (getLineNumber p.1, p.2)) := by
  unfold printResults
  rw [printResults_foldl]
  simp

/-- C6: isKeyPoint returns true exactly on branch instructions and call
instructions; it is a pure function of the instruction alone, consulting
neither the input set nor the key-point map. -/
theorem isKeyPoint_branch_or_call (I : Instruction) :
    isKeyPoint I = true ↔ (I.kind = InstKind.branch ∨ ∃ c, I.kind = InstKind.call c) := by
  obtain ⟨i, p, k, ops, d⟩ := I
  cases k with
  | branch => simp [isKeyPoint]
  | call c =>
    simp only [isKeyPoint]
    constructor
    · intro _
      exact Or.inr ⟨c, rfl⟩
    · intro _
      trivial
  | other => simp [isKeyPoint]

/-- C7 (P6): running on procedure A and then on procedure B produces for B
exactly the state (InputSet and KeyPointMap) and report of a run from a
freshly constructed instance; the clear at entry removes every trace of A. -/
theorem run_after_run_eq_fresh (s : PassState) (A B : Function) (UA UB : UsersEnv) :
    runOnFunction (runOnFunction s A UA).1 B UB = runOnFunction initState B UB := rfl

/-- C8 (P1): a second run of the full analysis on the same procedure, from
whatever state the first run left behind, returns the identical state
(InputSet membership and KeyPointMap contents) and the identical report. -/
theorem run_deterministic_repeat (s : PassState) (F : Function) (U : UsersEnv) :
    runOnFunction (runOnFunction s F U).1 F U = runOnFunction s F U := rfl

/-- C9: the line-number lookup returns the debug-location line when one is
attached and 0 when none exists; it is a total function, so a missing debug
location is handled silently. -/
theorem getLineNumber_total (I : Instruction) :
    (∀ l, I.debugLine = some l → getLineNumber I = l) ∧
    (I.debugLine = none → getLineNumber I = 0) := by
  constructor
  · intro l hl
    simp [getLineNumber, hl]
  · intro hl
    simp [getLineNumber, hl]

/-- C9 witness: the scanf call carries line 3; the branch has no debug
location and reports 0. -/
theorem getLineNumber_total_witness :
    getLineNumber instScanf = 3 ∧ getLineNumber instBr = 0 :=
  ⟨(getLineNumber_total instScanf).1 3 rfl, (getLineNumber_total instBr).2 rfl⟩

/-- C10: under user/operand symmetry, a scanf call with at least one
operand past index 0 is itself a key point and is recorded in the key-point
map with a non-empty influencing set containing each of its detected
argument values, because the call is a user of each of them. -/
theorem scanf_call_self_influenced (st : PassState) (F : Function) (U : UsersEnv)
    (hWF : UsersWellFormed F U) (I : Instruction)
    (hI : I ∈ allInsts F) (hscanf : I.kind = InstKind.call (some "scanf"))
    (hne : I.operands.drop 1 ≠ []) :
    isKeyPoint I = true ∧
    ∃ s, mapLookup (runOnFunction st F U).1.keyPointDependencies I = some s ∧
      s ≠ [] ∧ ∀ v ∈ I.operands.drop 1, v ∈ s := by
  have hkp : isKeyPoint I = true := isKeyPoint_of_call I _ hscanf
  refine ⟨hkp, ?_⟩
  show ∃ s, mapLookup (analyzeInputInfluence [] F U (detectInputVariables [] F)) I = some s ∧ _
  rw [analyze_eq_foldl_allInsts]
  have hall : ∀ v ∈ I.operands.drop 1, v ∈ influencing U (detectInputVariables [] F) I := by
    intro v hv
    rw [mem_influencing]
    constructor
    · rw [mem_detectInputVariables]
      exact Or.inr ⟨I, hI, hscanf, hv⟩
    · refine (isDependentOn_iff U I v).mpr ⟨I, ?_, Or.inl rfl⟩
      exact (hWF v I).mpr ⟨hI, List.drop_subset _ _ hv⟩
  obtain ⟨v0, hv0⟩ := List.exists_mem_of_ne_nil _ hne
  exact ⟨influencing U (detectInputVariables [] F) I,
    lookup_analyze_of_mem _ _ _ _ I hkp hI,
    List.ne_nil_of_mem (hall v0 hv0), hall⟩

/-- C10 witness: the concrete scanf call is a key point and its map entry
is non-empty, containing its detected argument, value 1. -/
theorem scanf_call_self_influenced_witness :
    isKeyPoint instScanf = true ∧
    ∃ s, mapLookup (runOnFunction initState funcMain usersMain).1.keyPointDependencies instScanf
        = some s ∧ s ≠ [] ∧ ∀ v ∈ instScanf.operands.drop 1, v ∈ s :=
  scanf_call_self_influenced initState funcMain usersMain usersMain_wf instScanf
    (by decide) (by decide) (by decide)

end SeminalInput
